import Mathlib

/-!
Verification development for the `gno-by-example` tutorial crawler
(`gbe_crawler.py`) and formatter (`gbe_formatter.py`).

The Python code is shallowly embedded: DOM pages are explicit data
(elements in document order, with the attribute/text values the code
queries), Python string primitives (`strip`, `split('\n')`, `splitlines`,
`replace`, substring `in`) are re-implemented executably over character
lists, dictionaries are association lists with Python-dict insertion
semantics, and a Python statement that can raise `AttributeError`
(calling `.inner_text()` on a `None` query result) is modelled by
returning `none` for the whole extraction.
-/

/-! ## Python string primitives -/

/-- Characters treated as whitespace by Python's `str.strip` (ASCII part). -/
def pyWs (c : Char) : Bool :=
  c = ' ' || c = '\t' || c = '\n' || c = '\r' || c = '\x0b' || c = '\x0c'

/-- Python `s.strip()`: remove leading and trailing whitespace. -/
def py_strip (s : String) : String :=
  String.mk (((s.data.dropWhile pyWs).reverse.dropWhile pyWs).reverse)

/-- Python `needle in hay` for strings: contiguous substring test. -/
def strContains (hay needle : String) : Bool :=
  decide (List.IsInfix needle.data hay.data)

/-- Split a character list at every newline character (Python `s.split('\n')`). -/
def splitNl : List Char → List (List Char)
  | [] => [[]]
  | c :: rest =>
    match splitNl rest with
    | [] => [[]]
    | h :: t => if c = '\n' then [] :: h :: t else (c :: h) :: t

/-- Python `s.split('\n')`. -/
def py_split_nl (s : String) : List String :=
  (splitNl s.data).map String.mk

/-- Python `s.splitlines()` restricted to `'\n'` line terminators: like
`split('\n')` but yielding no trailing empty line when the string ends in
a newline, and `[]` on the empty string. -/
def py_splitlines (s : String) : List String :=
  if s.data = [] then []
  else if s.data.getLast? = some '\n' then ((splitNl s.data).dropLast).map String.mk
  else (splitNl s.data).map String.mk

/-- Python `'\n'.join(l)`. -/
def join_lines : List String → String
  | [] => ""
  | [x] => x
  | x :: xs => x ++ "\n" ++ join_lines xs

/-- Concatenation of a list of strings (sequential `f.write` calls). -/
def join_all : List String → String
  | [] => ""
  | x :: xs => x ++ join_all xs

/-- Replace every non-overlapping occurrence of `old` (non-empty), scanning
left to right, by `new`. Structural recursion on a fuel argument so the
definition reduces in the kernel; each step consumes at least one input
character, so fuel equal to the input length never runs out. -/
def replaceCharsFuel (old new : List Char) : Nat → List Char → List Char
  | 0, s => s
  | _ + 1, [] => []
  | fuel + 1, c :: rest =>
    if old ≠ [] ∧ List.isPrefixOf old (c :: rest) then
      new ++ replaceCharsFuel old new fuel (rest.drop (old.length - 1))
    else
      c :: replaceCharsFuel old new fuel rest

/-- Python `s.replace(old, new)` (for the non-empty patterns the crawler uses). -/
def py_replace (s old new : String) : String :=
  String.mk (replaceCharsFuel old.data new.data s.data.length s.data)

/-- Remove `<...>` tag spans from raw markup; character-level model of
`BeautifulSoup(html, 'html.parser').get_text()` on the flat markup the
crawler feeds it. The Bool flag records being inside a tag. -/
def stripTagsAux : List Char → Bool → List Char
  | [], _ => []
  | c :: rest, true => if c = '>' then stripTagsAux rest false else stripTagsAux rest true
  | c :: rest, false => if c = '<' then stripTagsAux rest true else c :: stripTagsAux rest false

/-- `BeautifulSoup(html, 'html.parser').get_text()` model. -/
def soup_get_text (html : String) : String :=
  String.mk (stripTagsAux html.data false)

/-! ## DOM and result data model -/

/-- An anchor (`<a>`) descendant of a text element: its visible text
(`inner_text()`), its `href` attribute (`none` when the attribute is
missing), and its original markup (`node.outerHTML`). -/
structure Anchor where
  text : String
  href : Option String
  outerHTML : String
  deriving DecidableEq

/-- A prose element matched by `p.chakra-text`: its `inner_text()`, its
anchor descendants in order (`query_selector_all("a")`), and its raw
sub-markup (`inner_html()`). -/
structure TextElem where
  innerText : String
  anchors : List Anchor
  innerHTML : String
  deriving DecidableEq

/-- One element of the ordered `p.chakra-text, [role='tab']` query result.
For a tab, `label` is the `inner_text()` of its `p` descendant, or `none`
when `query_selector("p")` finds nothing. -/
inductive Elem where
  | tab (label : Option String)
  | txt (e : TextElem)
  deriving DecidableEq

/-- One entry of `content_blocks`: `('text', body)` or `('code', filename)`. -/
inductive Block where
  | text (body : String)
  | code (filename : String)
  deriving DecidableEq

/-- The dictionary returned by `extract_page_content`. -/
structure PageResult where
  title : String
  content_blocks : List Block
  code_contents : List (String × String)
  deriving DecidableEq

/-- A live page as the crawler observes it: the `b.chakra-text` title
element's text (if any), the ordered content elements, and the list the
injected `getEditorContent()` script returns (`none` when waiting for the
editor or evaluating the script raises). -/
structure Page where
  title_elem : Option String
  elements : List Elem
  editor_contents : Option (List String)
  deriving DecidableEq

/-! ## gbe_crawler.py -/

def GBE_URL : String := "https://gno-by-example.com"

/-- `footer_exact` set in `extract_page_content`. -/
def footer_exact : List String :=
  ["Gno by Example is a community project.",
   "Check out the GitHub repo.",
   "Learn more about Gno.land and",
   "be part of the conversation:",
   "Check out the full example here."]

/-- `footer_partial` list in `extract_page_content`. -/
def footer_partial : List String :=
  ["Check out the full example",
   "Gno by Example",
   "Check out the GitHub",
   "Learn more about Gno"]

/-- Markdown link `f"[{link_text}]({href})"`. -/
def md_link (text href : String) : String :=
  "[" ++ text ++ "](" ++ href ++ ")"

/-- One iteration of the anchor-substitution loop in
`extract_text_with_links`: substitute only when `href` is truthy
(present and non-empty) and the visible text is non-empty. -/
def subst_anchor (h : String) (l : Anchor) : String :=
  match l.href with
  | some href => if href ≠ "" ∧ l.text ≠ "" then py_replace h l.outerHTML (md_link l.text href) else h
  | none => h

/-- `GBECrawler.extract_text_with_links` (gbe_crawler.py lines 184-211). -/
def extract_text_with_links (e : TextElem) : String :=
  let text := py_strip e.innerText
  if text = "" then ""
  else if e.anchors = [] then text
  else py_strip (soup_get_text (e.anchors.foldl subst_anchor e.innerHTML))

/-- The accumulator flush in `extract_page_content` (lines 116-121 and
140-144): drop lines equal to a known filename, emit one `text` block if
anything remains. -/
def flush_acc (fns : List String) (acc : List String) : List Block :=
  let filtered := acc.filter (fun line => !(fns.contains line))
  if filtered = [] then [] else [Block.text (join_lines filtered)]

/-- The filename pre-scan of `extract_page_content` (lines 106-110):
`elem.query_selector("p").inner_text()` raises AttributeError when the
query finds nothing, modelled by `none`. -/
def collect_filenames : List Elem → Option (List String)
  | [] => some []
  | Elem.tab none :: _ => none
  | Elem.tab (some f) :: rest => (collect_filenames rest).map (fun l => f :: l)
  | Elem.txt _ :: rest => collect_filenames rest

/-- The main element pass of `extract_page_content` (lines 112-144),
with the accumulated `current_text` as the second argument; `none` models
the AttributeError raised on a tab without a `p` descendant (line 123). -/
def process_elements (title : String) (fns : List String) : List Elem → List String → Option (List Block)
  | [], acc => some (flush_acc fns acc)
  | Elem.tab none :: _, _ => none
  | Elem.tab (some f) :: rest, acc =>
    (process_elements title fns rest []).map (fun bs => flush_acc fns acc ++ Block.code f :: bs)
  | Elem.txt te :: rest, acc =>
    let t := extract_text_with_links te
    if t = "" then process_elements title fns rest acc
    else if t = title ∨ footer_exact.contains t then process_elements title fns rest acc
    else if footer_partial.any (fun fp => strContains t fp) then process_elements title fns rest acc
    else process_elements title fns rest (acc ++ [t])

/-- The tab labels gathered for the code-content zip (lines 161-166):
here the `if filename_elem` guard is present, so labelless tabs are skipped. -/
def tab_labels (elems : List Elem) : List String :=
  elems.filterMap (fun e => match e with | Elem.tab p => p | Elem.txt _ => none)

/-- Python-dict insertion on an association list: update the value in
place if the key exists, else append. -/
def dict_insert (d : List (String × String)) (k v : String) : List (String × String) :=
  if d.any (fun p => decide (p.1 = k)) then
    d.map (fun p => if p.1 = k then (k, v) else p)
  else d ++ [(k, v)]

/-- The code-content resolver of `extract_page_content` (lines 168-174):
zip filenames with editor contents positionally and record trimmed
non-whitespace contents in the dict. -/
def resolve_code_contents (filenames contents : List String) : List (String × String) :=
  (filenames.zip contents).foldl
    (fun d fc => if fc.2 ≠ "" ∧ py_strip fc.2 ≠ "" then dict_insert d fc.1 (py_strip fc.2) else d) []

/-- The title of a page (lines 77-79): the `b.chakra-text` element's
text, or the sentinel when the query finds nothing. -/
def page_title (pg : Page) : String :=
  match pg.title_elem with
  | some t => t
  | none => "Untitled"

/-- `GBECrawler.extract_page_content` (lines 73-182). `none` models an
exception escaping the function (propagated to `crawl`'s handler). -/
def extract_page_content (pg : Page) : Option PageResult :=
  let title := page_title pg
  match collect_filenames pg.elements with
  | none => none
  | some fns =>
    match process_elements title fns pg.elements [] with
    | none => none
    | some blocks =>
      let code :=
        match pg.editor_contents with
        | none => []
        | some cs => resolve_code_contents (tab_labels pg.elements) cs
      some { title := title, content_blocks := blocks, code_contents := code }

/-- The crawl loop of `GBECrawler.crawl` (lines 240-259): `fetch url`
is the combined effect of `page.goto` plus `extract_page_content`
(`none` when either raises). Returns the final `visited_urls` together
with the stored pages in navigation order. A page is stored only when its
`code_contents` dict is non-empty (line 250); `visited_urls` gains the URL
on any successful extraction. -/
def crawl_loop (fetch : String → Option PageResult) : List String → List String → List String × List (String × PageResult)
  | visited, [] => (visited, [])
  | visited, url :: rest =>
    if url ∈ visited then crawl_loop fetch visited rest
    else
      match fetch url with
      | none => crawl_loop fetch visited rest
      | some pr =>
        let r := crawl_loop fetch (url :: visited) rest
        (r.1, (if pr.code_contents = [] then [] else [(url, pr)]) ++ r.2)

/-- `GBECrawler.crawl` (lines 227-264): the returned dict, in the order
`ordered_urls` imposes. -/
def crawl (fetch : String → Option PageResult) (nav_urls : List String) : List (String × PageResult) :=
  (crawl_loop fetch [] nav_urls).2

/-- `format_code_block` (lines 266-274): drop leading and trailing
whitespace-only lines of `code.split('\n')` and re-join. -/
def format_code_block (code : String) : String :=
  let lines := py_split_nl code
  let lines := lines.dropWhile (fun s => decide (py_strip s = ""))
  let lines := (lines.reverse.dropWhile (fun s => decide (py_strip s = ""))).reverse
  join_lines lines

/-- The per-block writes of `main` (lines 305-314). -/
def write_blocks (code : List (String × String)) : List Block → String
  | [] => ""
  | Block.text body :: rest => body ++ "\n\n" ++ write_blocks code rest
  | Block.code f :: rest =>
    (match code.lookup f with
     | some c => "File: " ++ f ++ "\n" ++ "```" ++ "\n" ++ format_code_block c ++ "\n" ++ "```" ++ "\n\n"
     | none => "") ++ write_blocks code rest

/-- The `"-" * 80` separator rule. -/
def dashes : String := String.mk (List.replicate 80 '-')

/-- The per-page writes of `main` (lines 299-316). -/
def write_page (url : String) (pr : PageResult) : String :=
  "# " ++ pr.title ++ "\n" ++ "URL: " ++ url ++ "\n" ++ dashes ++ "\n\n"
    ++ write_blocks pr.code_contents pr.content_blocks ++ dashes ++ "\n\n"

/-- The whole file content `main` writes (lines 295-316). -/
def write_output (content : List (String × PageResult)) : String :=
  "Crawled " ++ toString content.length ++ " pages from " ++ GBE_URL ++ "\n"
    ++ dashes ++ "\n\n" ++ join_all (content.map (fun p => write_page p.1 p.2))

/-- The write phase of `main` (lines 290-316) as a function of the crawl
result and the timestamp string: output filename and file content. -/
def writer_run (content : List (String × PageResult)) (timestamp : String) : String × String :=
  ("gno-by-example.com_" ++ timestamp ++ ".txt", write_output content)

/-! ## gbe_formatter.py -/

/-- `lines_to_remove` in `clean_file_content`. -/
def lines_to_remove : List String :=
  ["Gno by Example is a community project.",
   "Check out the GitHub repo.",
   "Learn more about Gno.land and",
   "be part of the conversation:",
   "Check out the full example here."]

/-- Python `any(remove in line for remove in lines_to_remove)`. -/
def contains_any_removal (line : String) : Bool :=
  lines_to_remove.any (fun r => strContains line r)

/-- The filtering loop of `clean_file_content` (lines 21-30), with the
`started_content` flag as the second argument. -/
def clean_loop : List String → Bool → List String
  | [], _ => []
  | line :: rest, false =>
    if py_strip line ≠ "" ∧ contains_any_removal line = false then line :: clean_loop rest true
    else clean_loop rest false
  | line :: rest, true =>
    if contains_any_removal line = false then line :: clean_loop rest true
    else clean_loop rest true

/-- The trailing-blank-line removal of `clean_file_content` (lines 32-34). -/
def drop_trailing_blanks (l : List String) : List String :=
  (l.reverse.dropWhile (fun s => decide (py_strip s = ""))).reverse

/-- `clean_file_content` (gbe_formatter.py lines 5-36). -/
def clean_file_content (content : String) : String :=
  join_lines (drop_trailing_blanks (clean_loop (py_splitlines content) false))

/-- The kept lines of `clean_file_content`, before joining. -/
def clean_lines (content : String) : List String :=
  drop_trailing_blanks (clean_loop (py_splitlines content) false)

/-! ## Spec-side definitions (worded from spec.md, for comparison) -/

/-- Spec-side anchor substitution exactly as claim C7 states it: an anchor
with non-empty visible text and a present `href` is substituted, anchors
with empty visible text or missing `href` are left untouched. -/
def subst_anchor_claim (h : String) (l : Anchor) : String :=
  if l.href.isSome ∧ l.text ≠ "" then py_replace h l.outerHTML (md_link l.text (l.href.getD "")) else h

/-- Claim C7's flattener as stated: trimmed plain text when no anchors,
otherwise substitute every qualifying anchor in the raw markup and strip
the remaining tags. -/
def spec_flatten_claim (e : TextElem) : String :=
  let text := py_strip e.innerText
  if text = "" then ""
  else if e.anchors = [] then text
  else py_strip (soup_get_text (e.anchors.foldl subst_anchor_claim e.innerHTML))

/-- Amended anchor substitution: an anchor with non-empty visible text and
a present, non-empty `href` is substituted; anchors with empty visible
text, or with a missing or empty `href`, are left untouched. -/
def subst_anchor_amended (h : String) (l : Anchor) : String :=
  if l.text ≠ "" ∧ l.href ≠ none ∧ l.href ≠ some "" then
    py_replace h l.outerHTML (md_link l.text (l.href.getD ""))
  else h

/-- The flattener as the amended claim C7 describes it. -/
def spec_flatten_amended (e : TextElem) : String :=
  let text := py_strip e.innerText
  if text = "" then ""
  else if e.anchors = [] then text
  else py_strip (soup_get_text (e.anchors.foldl subst_anchor_amended e.innerHTML))

/-- Spec-side rendering of a single block (spec.md section 4.5): a `Text`
block verbatim plus a blank line; a `CodeRef` block as a labeled fenced
block holding the CodeContent entry for that exact filename with leading
and trailing blank lines trimmed, and the empty string (silent omission,
no placeholder) when the filename has no entry. -/
def render_block (code : List (String × String)) : Block → String
  | Block.text body => body ++ "\n\n"
  | Block.code f =>
    match code.lookup f with
    | some c => "File: " ++ f ++ "\n" ++ "```" ++ "\n" ++ format_code_block c ++ "\n" ++ "```" ++ "\n\n"
    | none => ""

/-- Spec-side cleaning (claim C10's wording): drop leading lines up to the
first non-blank removal-free line, drop every line containing a removal
string, drop trailing whitespace-only lines, keep the rest verbatim in
order. -/
def spec_clean (content : String) : String :=
  let ls := py_splitlines content
  let ls := ls.dropWhile (fun l => py_strip l = "" || contains_any_removal l)
  let ls := ls.filter (fun l => !(contains_any_removal l))
  join_lines (drop_trailing_blanks ls)

/-- First occurrences of a list of URLs, relative to an already-seen set. -/
def dedup_first_aux (seen : List String) : List String → List String
  | [] => []
  | u :: rest => if u ∈ seen then dedup_first_aux seen rest else u :: dedup_first_aux (u :: seen) rest

/-- First occurrences of a list of URLs. -/
def dedup_first (l : List String) : List String :=
  dedup_first_aux [] l

/-- The entry the crawl stores for a URL: its page, provided extraction
succeeded and produced a non-empty code-contents dict. -/
def stored_entry (fetch : String → Option PageResult) (u : String) : Option (String × PageResult) :=
  match fetch u with
  | none => none
  | some pr => if pr.code_contents = [] then none else some (u, pr)

/-- The filenames of the `CodeRef` blocks of a block list, in order. -/
def code_names (blocks : List Block) : List String :=
  blocks.filterMap (fun b => match b with | Block.code f => some f | Block.text _ => none)

/-- Every `Text` block is the last block or immediately followed by a
`CodeRef` block. -/
def texts_followed_by_code : List Block → Bool
  | [] => true
  | [_] => true
  | Block.text _ :: b :: rest => (match b with | Block.code _ => true | Block.text _ => false) && texts_followed_by_code (b :: rest)
  | Block.code _ :: rest => texts_followed_by_code rest

/-- A concrete fetch oracle whose pages extract successfully but carry no
code contents. -/
def fetch_codeless : String → Option PageResult :=
  fun _ => some { title := "T", content_blocks := [], code_contents := [] }

/-! ## Helper lemmas -/

theorem nl_data : "\n".data = ['\n'] := rfl

theorem py_strip_empty : py_strip "" = "" := rfl

/-- A prefix of `x ++ c :: y` avoiding `c` is a prefix of `x`. -/
theorem prefix_stop_before (c : Char) (y : List Char) :
    ∀ (x t : List Char), c ∉ t → List.IsPrefix t (x ++ c :: y) → List.IsPrefix t x := by
  intro x
  induction x with
  | nil =>
    intro t hc h
    cases t with
    | nil => exact ⟨[], rfl⟩
    | cons b t' =>
      obtain ⟨r, hr⟩ := h
      simp only [List.nil_append, List.cons_append] at hr
      injection hr with h1 _
      exact absurd (h1 ▸ List.mem_cons_self b t') hc
  | cons a x' ih =>
    intro t hc h
    cases t with
    | nil => exact ⟨a :: x', rfl⟩
    | cons b t' =>
      obtain ⟨r, hr⟩ := h
      simp only [List.cons_append] at hr
      injection hr with h1 h2
      subst h1
      obtain ⟨q, hq⟩ := ih t' (fun hm => hc (List.mem_cons_of_mem _ hm)) ⟨r, h2⟩
      exact ⟨q, by simp [hq]⟩

/-- An infix of `x ++ c :: y` avoiding `c` lies inside `x` or inside `y`. -/
theorem infix_split_at (c : Char) (y : List Char) :
    ∀ (x t : List Char), c ∉ t → List.IsInfix t (x ++ c :: y) →
      List.IsInfix t x ∨ List.IsInfix t y := by
  intro x
  induction x with
  | nil =>
    intro t hc h
    obtain ⟨s, r, hsr⟩ := h
    cases s with
    | nil =>
      cases t with
      | nil => exact Or.inl ⟨[], [], rfl⟩
      | cons b t' =>
        simp only [List.nil_append, List.cons_append] at hsr
        injection hsr with h1 _
        exact absurd (h1 ▸ List.mem_cons_self b t') hc
    | cons d s' =>
      simp only [List.nil_append, List.cons_append] at hsr
      injection hsr with h1 h2
      exact Or.inr ⟨s', r, h2⟩
  | cons a x' ih =>
    intro t hc h
    obtain ⟨s, r, hsr⟩ := h
    cases s with
    | nil =>
      have hpre : List.IsPrefix t ((a :: x') ++ c :: y) := ⟨r, by simpa using hsr⟩
      obtain ⟨q, hq⟩ := prefix_stop_before c y (a :: x') t hc hpre
      exact Or.inl ⟨[], q, by simpa using hq⟩
    | cons d s' =>
      simp only [List.cons_append] at hsr
      injection hsr with h1 h2
      rcases ih t hc ⟨s', r, h2⟩ with hx | hy
      · subst h1
        obtain ⟨s2, r2, h3⟩ := hx
        exact Or.inl ⟨d :: s2, r2, by simp [← h3]⟩
      · exact Or.inr hy

/-- A newline-free non-empty string that is an infix of a `'\n'`-join is an
infix of one of the joined pieces. -/
theorem not_infix_join_lines (p : List Char) (hne : p ≠ []) (hnl : '\n' ∉ p) :
    ∀ pieces : List String, (∀ x ∈ pieces, ¬ List.IsInfix p x.data) →
      ¬ List.IsInfix p (join_lines pieces).data := by
  intro pieces
  induction pieces with
  | nil =>
    intro _ h
    obtain ⟨s, r, hsr⟩ := h
    have : p = [] := by
      cases s <;> cases p <;> simp_all [join_lines]
    exact hne this
  | cons x xs ih =>
    intro hall
    cases xs with
    | nil => exact hall x (List.mem_cons_self x [])
    | cons y ys =>
      intro h
      have hdata : (join_lines (x :: y :: ys)).data
          = x.data ++ '\n' :: (join_lines (y :: ys)).data := by
        show ((x ++ "\n") ++ join_lines (y :: ys)).data = _
        rw [String.data_append, String.data_append, nl_data]
        simp
      rw [hdata] at h
      rcases infix_split_at '\n' (join_lines (y :: ys)).data x.data p hnl h with h1 | h2
      · exact hall x (List.mem_cons_self x _) h1
      · exact ih (fun z hz => hall z (List.mem_cons_of_mem x hz)) h2

theorem zip_fst_sublist : ∀ (fs cs : List String), List.Sublist ((fs.zip cs).map Prod.fst) fs := by
  intro fs
  induction fs with
  | nil => intro cs; simp
  | cons f fs ih =>
    intro cs
    cases cs with
    | nil => simp
    | cons c cs => simpa using List.Sublist.cons₂ f (ih cs)

/-- Inserting a fresh key into a Python dict appends. -/
theorem dict_insert_fresh (d : List (String × String)) (k v : String)
    (h : ∀ q ∈ d, q.1 ≠ k) : dict_insert d k v = d ++ [(k, v)] := by
  unfold dict_insert
  have hany : d.any (fun p => decide (p.1 = k)) = false := by
    simp only [List.any_eq_false]
    intro p hp
    simpa using h p hp
  simp [hany]

/-- The resolver's fold, over a pair list with distinct filenames and all
fresh relative to the accumulated dict, appends exactly the recorded pairs. -/
theorem resolve_fold_spec :
    ∀ (l : List (String × String)) (d : List (String × String)),
      (l.map Prod.fst).Nodup →
      (∀ p ∈ l, ∀ q ∈ d, q.1 ≠ p.1) →
      l.foldl (fun d fc => if fc.2 ≠ "" ∧ py_strip fc.2 ≠ "" then dict_insert d fc.1 (py_strip fc.2) else d) d
        = d ++ (l.filter (fun p => decide (py_strip p.2 ≠ ""))).map (fun p => (p.1, py_strip p.2)) := by
  intro l
  induction l with
  | nil => intro d _ _; simp
  | cons fc l ih =>
    intro d hnd hfresh
    have hnd2 : (fc.1 :: l.map Prod.fst).Nodup := by
      rw [List.map_cons] at hnd
      exact hnd
    have hhead : ∀ p ∈ l, p.1 ≠ fc.1 := by
      intro p hp he
      exact (List.nodup_cons.mp hnd2).1 (he ▸ List.mem_map_of_mem Prod.fst hp)
    have hnd' : (l.map Prod.fst).Nodup := (List.nodup_cons.mp hnd2).2
    by_cases hc : py_strip fc.2 = ""
    · have hcond : ¬ (fc.2 ≠ "" ∧ py_strip fc.2 ≠ "") := by
        intro hcon
        exact hcon.2 hc
      rw [List.foldl_cons, if_neg hcond,
        ih d hnd' (fun p hp q hq => hfresh p (List.mem_cons_of_mem fc hp) q hq)]
      simp [List.filter_cons, hc]
    · have hne : fc.2 ≠ "" := by
        intro h0
        apply hc
        rw [h0]
        exact py_strip_empty
      rw [List.foldl_cons, if_pos ⟨hne, hc⟩,
        dict_insert_fresh d fc.1 (py_strip fc.2) (fun q hq => hfresh fc (List.mem_cons_self fc l) q hq),
        ih (d ++ [(fc.1, py_strip fc.2)]) hnd' ?fresh]
      · simp [List.filter_cons, hc]
      case fresh =>
        intro p hp q hq
        rcases List.mem_append.mp hq with h1 | h2
        · exact hfresh p (List.mem_cons_of_mem fc hp) q h1
        · have : q = (fc.1, py_strip fc.2) := by simpa using h2
          rw [this]
          exact fun he => hhead p hp he.symm

/-- The crawl loop stores, in navigation order, exactly the first
occurrences of successfully fetched URLs that carry code contents. -/
theorem crawl_loop_spec (fetch : String → Option PageResult) :
    ∀ (nav visited : List String),
      (crawl_loop fetch visited nav).2
        = (dedup_first_aux visited (nav.filter (fun u => (fetch u).isSome))).filterMap (stored_entry fetch) := by
  intro nav
  induction nav with
  | nil => intro visited; rfl
  | cons u rest ih =>
    intro visited
    by_cases hv : u ∈ visited
    · cases hf : fetch u with
      | none => simp [crawl_loop, hv, hf, List.filter_cons, ih]
      | some pr => simp [crawl_loop, hv, hf, List.filter_cons, dedup_first_aux, ih]
    · cases hf : fetch u with
      | none => simp [crawl_loop, hv, hf, List.filter_cons, ih]
      | some pr =>
        by_cases hc : pr.code_contents = [] <;>
          simp [crawl_loop, hv, hf, hc, List.filter_cons, dedup_first_aux, stored_entry,
            List.filterMap_cons, ih]

/-! ## Claims -/

/-- C1: the Code Content Resolver pairs the ordered tab-label filenames
with the ordered editor contents strictly by index; pairs with non-empty,
non-whitespace-only content are recorded as `filename → trimmed content`,
pairs with empty or whitespace-only content are not recorded, and pairs
beyond the shorter list are dropped (the zip truncates, so 3 tabs with 2
contents yield at most 2 entries). Stated for pages whose filenames are
distinct, matching the data model's "filename unique within a page". -/
theorem resolve_code_contents_zip (filenames contents : List String)
    (hnd : filenames.Nodup) :
    resolve_code_contents filenames contents
      = ((filenames.zip contents).filter (fun p => decide (py_strip p.2 ≠ ""))).map
          (fun p => (p.1, py_strip p.2)) := by
  unfold resolve_code_contents
  have hznd : ((filenames.zip contents).map Prod.fst).Nodup :=
    List.Nodup.sublist (zip_fst_sublist filenames contents) hnd
  rw [resolve_fold_spec (filenames.zip contents) [] hznd (by intro p _ q hq; cases hq)]
  simp

/-- C1 witness: three tabs, two editor contents, the second whitespace-only:
exactly one entry is recorded and the third tab is dropped without error. -/
theorem resolve_code_contents_zip_witness :
    resolve_code_contents ["a.gno", "b.gno", "c.gno"] ["package main", "   "]
      = [("a.gno", "package main")] := by
  rw [resolve_code_contents_zip ["a.gno", "b.gno", "c.gno"] ["package main", "   "] (by decide)]
  decide

/-- C2 counterexample: a URL whose extraction succeeds but yields an empty
code-contents dict is added to `visited_urls` yet stored in no CrawlResult
entry, so the result does not contain one PageResult per visited
non-erroring URL. -/
theorem crawl_codeless_visited_but_dropped :
    (crawl_loop fetch_codeless [] ["u"]).1 = ["u"]
    ∧ crawl fetch_codeless ["u"] = []
    ∧ fetch_codeless "u" ≠ none := by
  refine ⟨by decide, by decide, by decide⟩

/-- C2 (amended): the CrawlResult contains exactly one PageResult for every
visited URL whose extraction succeeded with a non-empty code-contents
mapping (error URLs and pages without code content are excluded), one entry
per distinct URL, and the insertion order of its URL keys equals the order
in which those URLs first appear in the navigation list. -/
theorem crawl_nav_order (fetch : String → Option PageResult) (nav_urls : List String) :
    crawl fetch nav_urls
      = (dedup_first (nav_urls.filter (fun u => (fetch u).isSome))).filterMap (stored_entry fetch) := by
  unfold crawl dedup_first
  exact crawl_loop_spec fetch nav_urls []

/-- C3: the claim says a DOM-query miss never raises during page-content
extraction; but `extract_page_content` calls `.inner_text()` on the result
of `tab.query_selector("p")` without a `None` check (gbe_crawler.py lines
109 and 123), so a tab element with no `p` descendant raises
AttributeError — modelled here as the extraction aborting with `none`.
The sibling code paths (lines 78-79 and 163-166) do guard the same query,
so the unguarded calls are a slip relative to the documented design. -/
theorem extract_page_content_tab_missing_p_raises :
    extract_page_content { title_elem := some "T", elements := [Elem.tab none],
                           editor_contents := some [] } = none := by
  decide

/-- C6: the Reconstruction Writer replays the block sequence: every `Text`
block is emitted verbatim followed by a blank line, every `CodeRef` block
is emitted as a labeled fenced block whose body is the CodeContent entry
for that exact filename with leading and trailing blank lines trimmed —
and only when the filename is present in the mapping; an absent filename
contributes nothing (no placeholder). `render_block` is the spec-side
per-block rendering. -/
theorem write_blocks_replay (code : List (String × String)) (blocks : List Block) :
    write_blocks code blocks = join_all (blocks.map (render_block code)) := by
  induction blocks with
  | nil => rfl
  | cons b rest ih =>
    cases b with
    | text body => simp [write_blocks, join_all, render_block, ih]
    | code f =>
      cases h : code.lookup f <;>
        simp [write_blocks, join_all, render_block, h, ih]

/-- C7 counterexample: an anchor with non-empty visible text `"docs"` and a
present (but empty) `href` attribute is NOT substituted by the code — the
claim's reading would render `"[docs]()"`, the code leaves the markup
untouched and strips it to `"docs"`. -/
theorem flatten_empty_href_counterexample :
    extract_text_with_links { innerText := "docs",
                              anchors := [{ text := "docs", href := some "", outerHTML := "<a href=\"\">docs</a>" }],
                              innerHTML := "<a href=\"\">docs</a>" } = "docs"
    ∧ spec_flatten_claim { innerText := "docs",
                           anchors := [{ text := "docs", href := some "", outerHTML := "<a href=\"\">docs</a>" }],
                           innerHTML := "<a href=\"\">docs</a>" } = "[docs]()"
    ∧ ("docs" : String) ≠ "[docs]()" := by
  refine ⟨by decide, by decide, by decide⟩

/-- C7 (amended): with no anchor descendants the flattener returns the
trimmed plain text; otherwise every contained anchor with non-empty visible
text and a present, NON-EMPTY `href` is substituted in the raw markup by
`[text](href)`, anchors with empty visible text or with a missing or empty
`href` are left untouched, and the remaining markup tags are stripped. -/
theorem extract_text_with_links_amended (e : TextElem) :
    extract_text_with_links e = spec_flatten_amended e := by
  have hstep : subst_anchor = subst_anchor_amended := by
    funext h l
    cases hl : l.href with
    | none => simp [subst_anchor, subst_anchor_amended, hl]
    | some hr =>
      by_cases h1 : hr = "" <;> by_cases h2 : l.text = "" <;>
        simp [subst_anchor, subst_anchor_amended, hl, h1, h2]
  simp [extract_text_with_links, spec_flatten_amended, hstep]

/-- C8: the Reconstruction Writer is a pure function of the CrawlResult —
two runs on the same CrawlResult produce byte-identical file content
regardless of their timestamps, and the timestamp reaches only the derived
output filename. -/
theorem writer_deterministic (content : List (String × PageResult)) (t1 t2 : String) :
    (writer_run content t1).2 = (writer_run content t2).2
    ∧ (writer_run content t1).1 = "gno-by-example.com_" ++ t1 ++ ".txt" :=
  ⟨rfl, rfl⟩

theorem flush_acc_eq (fns acc : List String) :
    flush_acc fns acc
      = if acc.filter (fun line => !(fns.contains line)) = [] then []
        else [Block.text (join_lines (acc.filter (fun line => !(fns.contains line))))] := rfl

theorem code_names_flush (fns acc : List String) : code_names (flush_acc fns acc) = [] := by
  rw [flush_acc_eq]
  split <;> simp [code_names]

theorem code_names_append (a b : List Block) :
    code_names (a ++ b) = code_names a ++ code_names b := by
  simp [code_names, List.filterMap_append]

/-- The `CodeRef` filenames of the produced blocks are the tab labels
in document order, whatever text has accumulated. -/
theorem process_code_names_aux (title : String) (fns : List String) :
    ∀ (elems : List Elem) (acc : List String) (blocks : List Block),
      process_elements title fns elems acc = some blocks →
      code_names blocks = tab_labels elems := by
  intro elems
  induction elems with
  | nil =>
    intro acc blocks h
    simp only [process_elements, Option.some_inj] at h
    subst h
    simp [code_names_flush, tab_labels]
  | cons e rest ih =>
    intro acc blocks h
    cases e with
    | tab lab =>
      cases lab with
      | none => simp [process_elements] at h
      | some f =>
        simp only [process_elements] at h
        obtain ⟨bs, hbs, hblocks⟩ := Option.map_eq_some'.mp h
        subst hblocks
        rw [code_names_append]
        simp only [code_names_flush, List.nil_append]
        simp only [code_names, List.filterMap_cons]
        simp only [tab_labels, List.filterMap_cons]
        have := ih [] bs hbs
        simp only [code_names, tab_labels] at this
        simp [this]
    | txt te =>
      simp only [process_elements] at h
      have htl : tab_labels (Elem.txt te :: rest) = tab_labels rest := by
        simp [tab_labels, List.filterMap_cons]
      rw [htl]
      split_ifs at h with h1 h2 h3
      · exact ih acc blocks h
      · exact ih acc blocks h
      · exact ih acc blocks h
      · exact ih _ blocks h

/-- C4: the Page Content Extractor preserves document order and flushes as
specified: on a tab element the pending accumulator is flushed as a single
`Text` block — after removing lines exactly equal to a known filename, and
only if non-empty — followed by the tab's `CodeRef` block and the blocks of
the remaining elements; after the pass any remaining accumulator is flushed
the same way; consequently the `CodeRef` filenames of the output equal the
tab labels in document order. -/
theorem process_elements_order_flush
    (title : String) (fns : List String) (f : String) (rest : List Elem)
    (acc : List String) (elems : List Elem) (blocks : List Block) :
    (process_elements title fns (Elem.tab (some f) :: rest) acc
      = (process_elements title fns rest []).map
          (fun bs =>
            (if acc.filter (fun line => !(fns.contains line)) = [] then []
             else [Block.text (join_lines (acc.filter (fun line => !(fns.contains line))))])
            ++ Block.code f :: bs))
    ∧ process_elements title fns [] acc
      = some (if acc.filter (fun line => !(fns.contains line)) = [] then []
              else [Block.text (join_lines (acc.filter (fun line => !(fns.contains line))))])
    ∧ (process_elements title fns elems [] = some blocks →
        code_names blocks = tab_labels elems) :=
  ⟨rfl, rfl, process_code_names_aux title fns elems [] blocks⟩

/-- C4 witness: a text element followed by one tab yields the flushed text
block and then that tab's `CodeRef`; the `CodeRef` filenames equal the tab
labels. -/
theorem process_elements_order_flush_witness :
    code_names [Block.text "Intro", Block.code "b.gno"]
      = tab_labels [Elem.txt { innerText := "Intro", anchors := [], innerHTML := "" },
                    Elem.tab (some "b.gno")] :=
  (process_elements_order_flush "T" ["b.gno"] "b.gno" [] []
      [Elem.txt { innerText := "Intro", anchors := [], innerHTML := "" },
       Elem.tab (some "b.gno")]
      [Block.text "Intro", Block.code "b.gno"]).2.2 (by decide)

theorem tfc_code_cons (f : String) (l : List Block) :
    texts_followed_by_code (Block.code f :: l) = texts_followed_by_code l := by
  cases l with
  | nil => rfl
  | cons b rest => rfl

theorem tfc_text_code_cons (b f : String) (l : List Block) :
    texts_followed_by_code (Block.text b :: Block.code f :: l)
      = texts_followed_by_code (Block.code f :: l) := rfl

theorem tfc_flush_code (fns acc : List String) (f : String) (l : List Block)
    (h : texts_followed_by_code l = true) :
    texts_followed_by_code (flush_acc fns acc ++ Block.code f :: l) = true := by
  rw [flush_acc_eq]
  split
  · simpa [tfc_code_cons] using h
  · simp only [List.cons_append, List.nil_append, tfc_text_code_cons, tfc_code_cons]
    exact h

/-- Every block list the element pass produces has each `Text` block last
or immediately followed by a `CodeRef` block. -/
theorem process_tfc_aux (title : String) (fns : List String) :
    ∀ (elems : List Elem) (acc : List String) (blocks : List Block),
      process_elements title fns elems acc = some blocks →
      texts_followed_by_code blocks = true := by
  intro elems
  induction elems with
  | nil =>
    intro acc blocks h
    simp only [process_elements, Option.some_inj] at h
    subst h
    rw [flush_acc_eq]
    split <;> rfl
  | cons e rest ih =>
    intro acc blocks h
    cases e with
    | tab lab =>
      cases lab with
      | none => simp [process_elements] at h
      | some f =>
        simp only [process_elements] at h
        obtain ⟨bs, hbs, hblocks⟩ := Option.map_eq_some'.mp h
        subst hblocks
        exact tfc_flush_code fns acc f bs (ih [] bs hbs)
    | txt te =>
      simp only [process_elements] at h
      split_ifs at h with h1 h2 h3
      · exact ih acc blocks h
      · exact ih acc blocks h
      · exact ih acc blocks h
      · exact ih _ blocks h

/-- C9: in every `content_blocks` sequence a successful page extraction
produces, no two adjacent blocks are both `Text` blocks — every `Text`
block is either the last block or immediately followed by a `CodeRef`
block, because accumulated text is flushed only at a tab element or at the
end of the pass. -/
theorem blocks_text_followed_by_code (pg : Page) (pr : PageResult)
    (h : extract_page_content pg = some pr) :
    texts_followed_by_code pr.content_blocks = true := by
  unfold extract_page_content at h
  cases hcf : collect_filenames pg.elements with
  | none => simp [hcf] at h
  | some fns =>
    cases hpe : process_elements (page_title pg) fns pg.elements [] with
    | none => simp [hcf, hpe] at h
    | some blocks =>
      simp only [hcf, hpe, Option.some_inj] at h
      subst h
      exact process_tfc_aux (page_title pg) fns pg.elements [] blocks hpe

/-- C9 witness: a concrete page with prose followed by a tab extracts to a
block list satisfying the adjacency invariant. -/
theorem blocks_text_followed_by_code_witness :
    texts_followed_by_code
        (PageResult.content_blocks
          { title := "T",
            content_blocks := [Block.text "Intro", Block.code "a.gno"],
            code_contents := [] }) = true :=
  blocks_text_followed_by_code
    { title_elem := some "T",
      elements := [Elem.txt { innerText := "Intro", anchors := [], innerHTML := "" },
                   Elem.tab (some "a.gno")],
      editor_contents := none }
    { title := "T",
      content_blocks := [Block.text "Intro", Block.code "a.gno"],
      code_contents := [] }
    (by decide)

theorem footer_partial_chars : ∀ p ∈ footer_partial, p.data ≠ [] ∧ '\n' ∉ p.data := by
  decide

theorem flush_partial_free (fns acc : List String)
    (hacc : ∀ t ∈ acc, ∀ q ∈ footer_partial, ¬ List.IsInfix q.data t.data)
    (body : String) (hmem : Block.text body ∈ flush_acc fns acc) :
    ∀ p ∈ footer_partial, ¬ List.IsInfix p.data body.data := by
  intro p hp
  rw [flush_acc_eq] at hmem
  split at hmem
  · simp at hmem
  · have hbody : body = join_lines (acc.filter (fun line => !(fns.contains line))) := by
      simpa using hmem
    subst hbody
    have hch := footer_partial_chars p hp
    exact not_infix_join_lines p.data hch.1 hch.2 (acc.filter (fun line => !(fns.contains line)))
      (fun x hx => hacc x (List.mem_of_mem_filter hx) p hp)

/-- Every `Text` block body the element pass emits avoids all configured
footer substrings, provided the accumulated lines do. -/
theorem process_partial_free_aux (title : String) (fns : List String) :
    ∀ (elems : List Elem) (acc : List String) (blocks : List Block),
      (∀ t ∈ acc, ∀ q ∈ footer_partial, ¬ List.IsInfix q.data t.data) →
      process_elements title fns elems acc = some blocks →
      ∀ body, Block.text body ∈ blocks → ∀ p ∈ footer_partial, ¬ List.IsInfix p.data body.data := by
  intro elems
  induction elems with
  | nil =>
    intro acc blocks hacc h body hmem p hp
    simp only [process_elements, Option.some_inj] at h
    subst h
    exact flush_partial_free fns acc hacc body hmem p hp
  | cons e rest ih =>
    intro acc blocks hacc h body hmem p hp
    cases e with
    | tab lab =>
      cases lab with
      | none => simp [process_elements] at h
      | some f =>
        simp only [process_elements] at h
        obtain ⟨bs, hbs, hblocks⟩ := Option.map_eq_some'.mp h
        subst hblocks
        rcases List.mem_append.mp hmem with hm | hm
        · exact flush_partial_free fns acc hacc body hm p hp
        · rcases List.mem_cons.mp hm with hm1 | hm2
          · simp at hm1
          · exact ih [] bs (by intro t ht; cases ht) hbs body hm2 p hp
    | txt te =>
      simp only [process_elements] at h
      split_ifs at h with h1 h2 h3
      · exact ih acc blocks hacc h body hmem p hp
      · exact ih acc blocks hacc h body hmem p hp
      · exact ih acc blocks hacc h body hmem p hp
      · refine ih (acc ++ [extract_text_with_links te]) blocks ?_ h body hmem p hp
        intro t ht q hq
        rcases List.mem_append.mp ht with h4 | h5
        · exact hacc t h4 q hq
        · have ht' : t = extract_text_with_links te := by simpa using h5
          subst ht'
          intro hinf
          exact h3 (List.any_eq_true.mpr ⟨q, hq, by simpa [strContains] using hinf⟩)

/-- C5 counterexample: the multi-line flattened text
`"hello\nbe part of the conversation:"` passes the filter (it is not
itself a footer line and contains no footer substring), yet its second
line is exactly the configured footer string
`"be part of the conversation:"` — so a prose line equal to a configured
footer string does appear in the emitted output, refuting the claim's
"consequently" part. -/
theorem footer_exact_line_in_output :
    extract_page_content
        { title_elem := some "T",
          elements := [Elem.txt { innerText := "hello\nbe part of the conversation:",
                                  anchors := [], innerHTML := "" }],
          editor_contents := some [] }
      = some { title := "T",
               content_blocks := [Block.text "hello\nbe part of the conversation:"],
               code_contents := [] }
    ∧ "be part of the conversation:" ∈ footer_exact
    ∧ "be part of the conversation:" ∈ py_split_nl "hello\nbe part of the conversation:" := by
  refine ⟨by decide, by decide, by decide⟩

/-- C5 (amended): the extractor skips a flattened text element whenever it
is empty, equals the page title, exactly matches one of the configured
exact footer strings, or contains any of the configured footer substrings;
consequently no emitted `Text` block contains any configured footer
substring anywhere (hence no output line contains one). A line inside a
multi-line flattened element can, however, still equal a configured exact
footer string that no footer substring covers — the whole-element exact
match does not see individual lines. -/
theorem process_elements_boilerplate
    (title : String) (fns : List String) (te : TextElem) (rest : List Elem)
    (acc : List String) (elems : List Elem) (blocks : List Block) (body p : String) :
    ((extract_text_with_links te = "" ∨ extract_text_with_links te = title
        ∨ extract_text_with_links te ∈ footer_exact
        ∨ ∃ q ∈ footer_partial, List.IsInfix q.data (extract_text_with_links te).data) →
      process_elements title fns (Elem.txt te :: rest) acc = process_elements title fns rest acc)
    ∧ (process_elements title fns elems [] = some blocks →
        Block.text body ∈ blocks → p ∈ footer_partial → ¬ List.IsInfix p.data body.data) := by
  constructor
  · intro hskip
    simp only [process_elements]
    split_ifs with h1 h2 h3
    · rfl
    · rfl
    · rfl
    · exfalso
      rcases hskip with h | h | h | ⟨q, hq, hinf⟩
      · exact h1 h
      · exact h2 (Or.inl h)
      · exact h2 (Or.inr (by simpa using h))
      · exact h3 (List.any_eq_true.mpr ⟨q, hq, by simpa [strContains] using hinf⟩)
  · intro hpe hmem hp
    exact process_partial_free_aux title fns elems [] blocks
      (by intro t ht; cases ht) hpe body hmem p hp

/-- C5 witness: a flattened text equal to a configured exact footer string
is skipped (the pass result is unchanged), and a concrete emitted body
contains no configured footer substring. -/
theorem process_elements_boilerplate_witness :
    (process_elements "T" []
        [Elem.txt { innerText := "Gno by Example is a community project.",
                    anchors := [], innerHTML := "" }] []
      = process_elements "T" [] [] [])
    ∧ ¬ List.IsInfix "Gno by Example".data "hello world".data := by
  constructor
  · exact (process_elements_boilerplate "T" []
        { innerText := "Gno by Example is a community project.", anchors := [], innerHTML := "" }
        [] [] [] [] "" "").1
      (Or.inr (Or.inr (Or.inl (by decide))))
  · exact (process_elements_boilerplate "T" []
        { innerText := "x", anchors := [], innerHTML := "" }
        [] [] [Elem.txt { innerText := "hello world", anchors := [], innerHTML := "" }]
        [Block.text "hello world"] "hello world" "Gno by Example").2
      (by decide) (by decide) (by decide)

theorem clean_loop_started (l : List String) :
    clean_loop l true = l.filter (fun x => !(contains_any_removal x)) := by
  induction l with
  | nil => rfl
  | cons x rest ih =>
    by_cases h : contains_any_removal x = false <;>
      simp_all [clean_loop, List.filter_cons, ih]

theorem clean_loop_from_start (l : List String) :
    clean_loop l false
      = (l.dropWhile (fun x => py_strip x = "" || contains_any_removal x)).filter
          (fun x => !(contains_any_removal x)) := by
  induction l with
  | nil => rfl
  | cons x rest ih =>
    by_cases h1 : py_strip x = "" <;> by_cases h2 : contains_any_removal x = false <;>
      simp_all [clean_loop, List.dropWhile_cons, List.filter_cons, clean_loop_started, ih]

theorem drop_trailing_blanks_sublist (l : List String) :
    List.Sublist (drop_trailing_blanks l) l := by
  unfold drop_trailing_blanks
  have h := List.dropWhile_sublist (l := l.reverse) (fun s => decide (py_strip s = ""))
  have h2 := List.Sublist.reverse h
  simpa using h2

/-- C10: `clean_file_content` keeps no line containing a configured removal
string, drops leading lines up to the first non-blank kept line, drops
trailing whitespace-only lines, and preserves every remaining line
verbatim in original order (the kept lines are a sublist of the input
lines); `spec_clean` is the claim-side description. -/
theorem clean_file_content_verbatim (content : String) :
    clean_file_content content = spec_clean content
    ∧ (∀ l ∈ clean_lines content, contains_any_removal l = false)
    ∧ List.Sublist (clean_lines content) (py_splitlines content) := by
  refine ⟨?_, ?_, ?_⟩
  · unfold clean_file_content spec_clean
    rw [clean_loop_from_start]
  · intro l hl
    unfold clean_lines at hl
    rw [clean_loop_from_start] at hl
    have hl2 := (drop_trailing_blanks_sublist _).subset hl
    have h3 := List.of_mem_filter hl2
    simpa using h3
  · unfold clean_lines
    rw [clean_loop_from_start]
    refine List.Sublist.trans (drop_trailing_blanks_sublist _) ?_
    exact List.Sublist.trans (List.filter_sublist _) (List.dropWhile_sublist _)

/-- C10 witness: on a concrete artifact the boilerplate and surrounding
blank lines are dropped and the kept line carries no removal string. -/
theorem clean_file_content_verbatim_witness :
    contains_any_removal "keep me" = false :=
  (clean_file_content_verbatim "\nGno by Example is a community project.\nkeep me\n").2.1
    "keep me" (by decide)
